import Mathlib

/-!
Verification of the anthropair dashboard against its specification.

The development shallowly embeds the JavaScript sources:
* `src/unnamed/part_000` — the Express settings router (schema, masking,
  .env parsing and rewriting, GET and POST handlers);
* `src/client/panels/task-queue.js` — the client task cache event handler;
* `src/client/panels/screen-share.js` — the LiveKit data-message handler;
* `src/client/panels/settings.js` — the settings form save handler.

Strings are embedded as `List Char`; JavaScript objects as association
lists with last-write-wins lookup; `process.env` as a map
`List Char → Option (List Char)`.

The server-side Task Store (createTask / resolveTask / markDone) is not
among the provided sources; it is modelled from the specification where
noted.
-/

namespace Anthropair

/-- Character-list strings, the embedding of JavaScript strings. -/
abbrev Chars := List Char

/-- Embedding of `String.prototype.trim`: drop whitespace from both ends. -/
def trimChars (s : Chars) : Chars :=
  ((s.dropWhile Char.isWhitespace).reverse.dropWhile Char.isWhitespace).reverse

/-- JavaScript `a || b` on an optional string `a`: `a` is used unless it is
absent (`undefined`) or empty (falsy). -/
def jsOr (a : Option Chars) (b : Chars) : Chars :=
  match a with
  | some v => if v.isEmpty then b else v
  | none => b

/-- JavaScript `a ?? b` on an optional string `a`. -/
def jsCoalesce (a : Option Chars) (b : Chars) : Chars :=
  a.getD b

/-! ## Task records and the client task cache

`src/client/panels/task-queue.js` keeps a per-tab mirror of the task list
and updates it on `task:update` events. -/

/-- Task status, from the data model: `pending`, `approved`, `rejected`,
`done`. -/
inductive Status where
  | pending
  | approved
  | rejected
  | done
deriving DecidableEq, Repr

/-- A task record: one proposed tool invocation awaiting a decision. -/
structure Task where
  id : Nat
  status : Status
  payload : Chars
  createdAt : Nat
  resolvedBy : Option Chars
deriving DecidableEq, Repr

/-- Modelled from the spec: `updateInArray` from `client/lib/state.js`
(not among the provided sources) — on `task:updated` the cache "replaces
the record for that id": every entry whose id matches is replaced by the
new record, all other entries are untouched. -/
def updateInArray (tasks : List Task) (id : Nat) (t : Task) : List Task :=
  tasks.map (fun u => if u.id = id then t else u)

/-- Modelled from the spec: `appendState` from `client/lib/state.js`
(not among the provided sources) — appends a record at the end of the
cached list. -/
def appendState (tasks : List Task) (t : Task) : List Task :=
  tasks ++ [t]

/-- `handleTaskUpdate` from `src/client/panels/task-queue.js`: on a
`task:update` event carrying the full record `t`, replace the cached
record with `t.id` if one exists, append `t` otherwise. -/
def handleTaskUpdate (tasks : List Task) (t : Task) : List Task :=
  if (tasks.find? (fun u => u.id = t.id)).isSome then
    updateInArray tasks t.id t
  else
    appendState tasks t

/-! ## The Task Store, modelled from the spec (§4.1)

The authoritative server-side store is not among the provided sources;
`createTask`, `resolveTask` and `markDone` are modelled from §4.1 of the
specification. -/

/-- A resolution decision: `approved` or `rejected`. -/
inductive Decision where
  | approve
  | reject
deriving DecidableEq, Repr

/-- The terminal status recorded for a decision. -/
def Decision.toStatus : Decision → Status
  | .approve => .approved
  | .reject => .rejected

/-- Modelled from the spec: the Task Store state — the canonical task
list in creation order plus the next fresh identifier. -/
structure TaskStore where
  tasks : List Task
  nextId : Nat
deriving DecidableEq, Repr

/-- The empty store a server process starts from. -/
def TaskStore.init : TaskStore := ⟨[], 0⟩

/-- Modelled from the spec: `createTask(payload)` — allocates a fresh id,
sets status `pending`, `resolvedBy = null`, records `createdAt`. -/
def createTask (st : TaskStore) (payload : Chars) (now : Nat) : TaskStore × Task :=
  let t : Task := ⟨st.nextId, .pending, payload, now, none⟩
  (⟨st.tasks ++ [t], st.nextId + 1⟩, t)

/-- Outcome of `resolveTask`. -/
inductive ResolveResult where
  | ok (t : Task)
  | alreadyResolved (t : Task)
  | notFound
deriving DecidableEq, Repr

/-- Modelled from the spec: `resolveTask(id, decision, clientId)` —
requires the task to currently be `pending`; if the task is not found,
fails with `NotFound`; if it is not `pending`, fails with
`AlreadyResolved` and returns the current unchanged record; on success
sets `status = decision`, `resolvedBy = clientId`. -/
def resolveTask (st : TaskStore) (id : Nat) (d : Decision) (clientId : Chars) :
    TaskStore × ResolveResult :=
  match st.tasks.find? (fun t => t.id = id) with
  | none => (st, .notFound)
  | some t =>
    if t.status = .pending then
      let t' : Task := { t with status := d.toStatus, resolvedBy := some clientId }
      (⟨st.tasks.map (fun u => if u.id = id then t' else u), st.nextId⟩, .ok t')
    else
      (st, .alreadyResolved t)

/-- Outcome of `markDone`. -/
inductive DoneResult where
  | ok (t : Task)
  | invalidTransition
  | notFound
deriving DecidableEq, Repr

/-- Modelled from the spec: `markDone(id)` — requires status `approved`;
transitions to `done`; fails with `InvalidTransition` otherwise. -/
def markDone (st : TaskStore) (id : Nat) : TaskStore × DoneResult :=
  match st.tasks.find? (fun t => t.id = id) with
  | none => (st, .notFound)
  | some t =>
    if t.status = .approved then
      let t' : Task := { t with status := .done }
      (⟨st.tasks.map (fun u => if u.id = id then t' else u), st.nextId⟩, .ok t')
    else
      (st, .invalidTransition)

/-- One mutating call against the Task Store. -/
inductive Call where
  | create (payload : Chars) (now : Nat)
  | resolve (id : Nat) (d : Decision) (clientId : Chars)
  | finish (id : Nat)
deriving DecidableEq, Repr

/-- Apply one call to the store, keeping only the store component. -/
def applyCall (st : TaskStore) : Call → TaskStore
  | .create payload now => (createTask st payload now).1
  | .resolve id d clientId => (resolveTask st id d clientId).1
  | .finish id => (markDone st id).1

/-- Run a sequence of calls from the empty store. -/
def execCalls (cs : List Call) : TaskStore :=
  cs.foldl applyCall TaskStore.init

/-- The allowed status transitions of the spec: stay put, leave `pending`
for `approved` or `rejected`, or move from `approved` to `done`. -/
def stepOK (s s' : Status) : Prop :=
  s = s' ∨ (s = .pending ∧ (s' = .approved ∨ s' = .rejected)) ∨
    (s = .approved ∧ s' = .done)

instance (s s' : Status) : Decidable (stepOK s s') := by
  unfold stepOK; infer_instance

/-- Store well-formedness: task ids are distinct and below `nextId`. -/
def WF (st : TaskStore) : Prop :=
  (st.tasks.map Task.id).Nodup ∧ ∀ t ∈ st.tasks, t.id < st.nextId

/-! ### Task Store lemmas -/

lemma nodup_id_inj {l : List Task} (h : (l.map Task.id).Nodup) :
    ∀ t ∈ l, ∀ t' ∈ l, t.id = t'.id → t = t' := by
  induction l with
  | nil => intro t ht; cases ht
  | cons x xs ih =>
    simp only [List.map_cons, List.nodup_cons] at h
    intro t ht t' ht' hid
    rcases List.mem_cons.1 ht with h1 | h1 <;>
      rcases List.mem_cons.1 ht' with h2 | h2
    · rw [h1, h2]
    · exfalso
      apply h.1
      have hx : x.id = t'.id := by rw [← h1]; exact hid
      rw [hx]
      exact List.mem_map_of_mem Task.id h2
    · exfalso
      apply h.1
      have hx : x.id = t.id := by rw [← h2]; exact hid.symm
      rw [hx]
      exact List.mem_map_of_mem Task.id h1
    · exact ih h.2 t h1 t' h2 hid

lemma stepOK_refl (s : Status) : stepOK s s := Or.inl rfl

/-- The replacement map used by `resolveTask` and `markDone` preserves ids. -/
lemma replace_id_eq (id : Nat) (t' : Task) (hid : t'.id = id) (u : Task) :
    (if u.id = id then t' else u).id = u.id := by
  by_cases h : u.id = id
  · simp [h, hid]
  · simp [h]

lemma map_replace_ids (l : List Task) (id : Nat) (t' : Task) (hid : t'.id = id) :
    (l.map (fun u => if u.id = id then t' else u)).map Task.id = l.map Task.id := by
  rw [List.map_map]
  refine List.map_congr_left fun u _ => ?_
  simpa using replace_id_eq id t' hid u

/-! Characterizations of `applyCall` in each case. -/

lemma applyCall_create (st : TaskStore) (payload : Chars) (now : Nat) :
    applyCall st (.create payload now) =
      ⟨st.tasks ++ [⟨st.nextId, .pending, payload, now, none⟩], st.nextId + 1⟩ := rfl

lemma applyCall_resolve_none (st : TaskStore) (id : Nat) (d : Decision) (cid : Chars)
    (hf : st.tasks.find? (fun u => u.id = id) = none) :
    applyCall st (.resolve id d cid) = st := by
  simp [applyCall, resolveTask, hf]

lemma applyCall_resolve_pending (st : TaskStore) (id : Nat) (d : Decision) (cid : Chars)
    (t0 : Task) (hf : st.tasks.find? (fun u => u.id = id) = some t0)
    (hp : t0.status = .pending) :
    applyCall st (.resolve id d cid) =
      ⟨st.tasks.map (fun u => if u.id = id then
        { t0 with status := d.toStatus, resolvedBy := some cid } else u), st.nextId⟩ := by
  simp [applyCall, resolveTask, hf, hp]

lemma applyCall_resolve_stale (st : TaskStore) (id : Nat) (d : Decision) (cid : Chars)
    (t0 : Task) (hf : st.tasks.find? (fun u => u.id = id) = some t0)
    (hp : t0.status ≠ .pending) :
    applyCall st (.resolve id d cid) = st := by
  simp [applyCall, resolveTask, hf, hp]

lemma applyCall_finish_none (st : TaskStore) (id : Nat)
    (hf : st.tasks.find? (fun u => u.id = id) = none) :
    applyCall st (.finish id) = st := by
  simp [applyCall, markDone, hf]

lemma applyCall_finish_approved (st : TaskStore) (id : Nat)
    (t0 : Task) (hf : st.tasks.find? (fun u => u.id = id) = some t0)
    (hp : t0.status = .approved) :
    applyCall st (.finish id) =
      ⟨st.tasks.map (fun u => if u.id = id then
        { t0 with status := .done } else u), st.nextId⟩ := by
  simp [applyCall, markDone, hf, hp]

lemma applyCall_finish_stale (st : TaskStore) (id : Nat)
    (t0 : Task) (hf : st.tasks.find? (fun u => u.id = id) = some t0)
    (hp : t0.status ≠ .approved) :
    applyCall st (.finish id) = st := by
  simp [applyCall, markDone, hf, hp]

lemma find?_id_eq {l : List Task} {id : Nat} {t0 : Task}
    (hf : l.find? (fun u => u.id = id) = some t0) : t0.id = id := by
  have := List.find?_some hf
  simpa using this

lemma WF_init : WF TaskStore.init := by
  constructor
  · simp [TaskStore.init]
  · intro t ht; simp [TaskStore.init] at ht

lemma WF_applyCall (st : TaskStore) (c : Call) (h : WF st) : WF (applyCall st c) := by
  obtain ⟨hnd, hlt⟩ := h
  cases c with
  | create payload now =>
    rw [applyCall_create]
    constructor
    · simp only [List.map_append, List.map_cons, List.map_nil]
      refine List.Nodup.append hnd (List.nodup_singleton _) ?_
      intro a ha hb
      rcases List.mem_map.1 ha with ⟨t, ht, rfl⟩
      rcases List.mem_singleton.1 hb with h
      exact Nat.ne_of_lt (hlt t ht) h
    · intro t ht
      rcases List.mem_append.1 ht with ht | ht
      · exact Nat.lt_succ_of_lt (hlt t ht)
      · rcases List.mem_singleton.1 ht with rfl
        exact Nat.lt_succ_self _
  | resolve id d clientId =>
    cases hf : st.tasks.find? (fun u => u.id = id) with
    | none => rw [applyCall_resolve_none st id d clientId hf]; exact ⟨hnd, hlt⟩
    | some t0 =>
      have h0 : t0.id = id := find?_id_eq hf
      by_cases hp : t0.status = .pending
      · rw [applyCall_resolve_pending st id d clientId t0 hf hp]
        constructor
        · show (List.map Task.id (st.tasks.map fun u => if u.id = id then
            { t0 with status := d.toStatus, resolvedBy := some clientId } else u)).Nodup
          rw [map_replace_ids st.tasks id
            { t0 with status := d.toStatus, resolvedBy := some clientId } h0]
          exact hnd
        · intro t ht
          rcases List.mem_map.1 ht with ⟨u, hu, rfl⟩
          have hre := replace_id_eq id
            { t0 with status := d.toStatus, resolvedBy := some clientId } h0 u
          show (if u.id = id then
            { t0 with status := d.toStatus, resolvedBy := some clientId } else u).id < st.nextId
          rw [hre]
          exact hlt u hu
      · rw [applyCall_resolve_stale st id d clientId t0 hf hp]; exact ⟨hnd, hlt⟩
  | finish id =>
    cases hf : st.tasks.find? (fun u => u.id = id) with
    | none => rw [applyCall_finish_none st id hf]; exact ⟨hnd, hlt⟩
    | some t0 =>
      have h0 : t0.id = id := find?_id_eq hf
      by_cases hp : t0.status = .approved
      · rw [applyCall_finish_approved st id t0 hf hp]
        constructor
        · show (List.map Task.id (st.tasks.map fun u => if u.id = id then
            { t0 with status := Status.done } else u)).Nodup
          rw [map_replace_ids st.tasks id { t0 with status := Status.done } h0]
          exact hnd
        · intro t ht
          rcases List.mem_map.1 ht with ⟨u, hu, rfl⟩
          have hre := replace_id_eq id { t0 with status := Status.done } h0 u
          show (if u.id = id then { t0 with status := Status.done } else u).id < st.nextId
          rw [hre]
          exact hlt u hu
      · rw [applyCall_finish_stale st id t0 hf hp]; exact ⟨hnd, hlt⟩

/-- Single-step transition safety: under well-formedness, any surviving
task only moves along an allowed edge. -/
lemma step_applyCall (st : TaskStore) (c : Call) (h : WF st) :
    ∀ t ∈ st.tasks, ∀ t' ∈ (applyCall st c).tasks, t.id = t'.id →
      stepOK t.status t'.status := by
  obtain ⟨hnd, hlt⟩ := h
  intro t ht t' ht' hid
  cases c with
  | create payload now =>
    rw [applyCall_create] at ht'
    rcases List.mem_append.1 ht' with ht' | ht'
    · rw [nodup_id_inj hnd t ht t' ht' hid]
      exact stepOK_refl _
    · rcases List.mem_singleton.1 ht' with rfl
      exact absurd (hid ▸ hlt t ht) (lt_irrefl _)
  | resolve id d clientId =>
    cases hf : st.tasks.find? (fun u => u.id = id) with
    | none =>
      rw [applyCall_resolve_none st id d clientId hf] at ht'
      rw [nodup_id_inj hnd t ht t' ht' hid]
      exact stepOK_refl _
    | some t0 =>
      have h0 : t0.id = id := find?_id_eq hf
      have hmem0 : t0 ∈ st.tasks := List.mem_of_find?_eq_some hf
      by_cases hp : t0.status = .pending
      · rw [applyCall_resolve_pending st id d clientId t0 hf hp] at ht'
        rcases List.mem_map.1 ht' with ⟨u, hu, rfl⟩
        by_cases he : u.id = id
        · rw [if_pos he] at hid ⊢
          have heq : t = t0 := nodup_id_inj hnd t ht t0 hmem0 (by simpa [h0] using hid)
          rw [heq, hp]
          cases d <;> simp [stepOK, Decision.toStatus]
        · rw [if_neg he] at hid ⊢
          rw [nodup_id_inj hnd t ht u hu hid]
          exact stepOK_refl _
      · rw [applyCall_resolve_stale st id d clientId t0 hf hp] at ht'
        rw [nodup_id_inj hnd t ht t' ht' hid]
        exact stepOK_refl _
  | finish id =>
    cases hf : st.tasks.find? (fun u => u.id = id) with
    | none =>
      rw [applyCall_finish_none st id hf] at ht'
      rw [nodup_id_inj hnd t ht t' ht' hid]
      exact stepOK_refl _
    | some t0 =>
      have h0 : t0.id = id := find?_id_eq hf
      have hmem0 : t0 ∈ st.tasks := List.mem_of_find?_eq_some hf
      by_cases hp : t0.status = .approved
      · rw [applyCall_finish_approved st id t0 hf hp] at ht'
        rcases List.mem_map.1 ht' with ⟨u, hu, rfl⟩
        by_cases he : u.id = id
        · rw [if_pos he] at hid ⊢
          have heq : t = t0 := nodup_id_inj hnd t ht t0 hmem0 (by simpa [h0] using hid)
          rw [heq, hp]
          exact Or.inr (Or.inr ⟨rfl, rfl⟩)
        · rw [if_neg he] at hid ⊢
          rw [nodup_id_inj hnd t ht u hu hid]
          exact stepOK_refl _
      · rw [applyCall_finish_stale st id t0 hf hp] at ht'
        rw [nodup_id_inj hnd t ht t' ht' hid]
        exact stepOK_refl _

/-- A task appearing after a call with an id unknown to the previous
state is freshly created, hence `pending`. -/
lemma fresh_pending (st : TaskStore) (c : Call) :
    ∀ t' ∈ (applyCall st c).tasks, (∀ t ∈ st.tasks, t.id ≠ t'.id) →
      t'.status = .pending := by
  intro t' ht' hfresh
  cases c with
  | create payload now =>
    rw [applyCall_create] at ht'
    rcases List.mem_append.1 ht' with ht' | ht'
    · exact absurd rfl (hfresh t' ht')
    · rcases List.mem_singleton.1 ht' with rfl
      rfl
  | resolve id d clientId =>
    cases hf : st.tasks.find? (fun u => u.id = id) with
    | none =>
      rw [applyCall_resolve_none st id d clientId hf] at ht'
      exact absurd rfl (hfresh t' ht')
    | some t0 =>
      have h0 : t0.id = id := find?_id_eq hf
      by_cases hp : t0.status = .pending
      · rw [applyCall_resolve_pending st id d clientId t0 hf hp] at ht'
        rcases List.mem_map.1 ht' with ⟨u, hu, rfl⟩
        have hre := replace_id_eq id
          { t0 with status := d.toStatus, resolvedBy := some clientId } h0 u
        exact absurd hre.symm (hfresh u hu)
      · rw [applyCall_resolve_stale st id d clientId t0 hf hp] at ht'
        exact absurd rfl (hfresh t' ht')
  | finish id =>
    cases hf : st.tasks.find? (fun u => u.id = id) with
    | none =>
      rw [applyCall_finish_none st id hf] at ht'
      exact absurd rfl (hfresh t' ht')
    | some t0 =>
      have h0 : t0.id = id := find?_id_eq hf
      by_cases hp : t0.status = .approved
      · rw [applyCall_finish_approved st id t0 hf hp] at ht'
        rcases List.mem_map.1 ht' with ⟨u, hu, rfl⟩
        have hre := replace_id_eq id { t0 with status := Status.done } h0 u
        exact absurd hre.symm (hfresh u hu)
      · rw [applyCall_finish_stale st id t0 hf hp] at ht'
        exact absurd rfl (hfresh t' ht')

lemma WF_execCalls (cs : List Call) : WF (execCalls cs) := by
  induction cs using List.reverseRecOn with
  | nil => exact WF_init
  | append_singleton cs c ih =>
    have : execCalls (cs ++ [c]) = applyCall (execCalls cs) c := by
      simp [execCalls, List.foldl_append]
    rw [this]
    exact WF_applyCall _ _ ih

lemma execCalls_snoc (cs : List Call) (c : Call) :
    execCalls (cs ++ [c]) = applyCall (execCalls cs) c := by
  simp [execCalls, List.foldl_append]

/-- C1: for every task, status only ever moves forward along
`pending → approved → done` or `pending → rejected`: along any reachable
call sequence, one more `createTask`/`resolveTask`/`markDone` call moves
each surviving task along an allowed edge only (`done` is reachable only
from `approved`, no regression to `pending`), and any task appearing
under an id unknown to the previous state starts out `pending`. -/
theorem task_status_transitions_monotonic (cs : List Call) (c : Call) :
    (∀ t ∈ (execCalls cs).tasks, ∀ t' ∈ (execCalls (cs ++ [c])).tasks,
      t.id = t'.id → stepOK t.status t'.status) ∧
    (∀ t' ∈ (execCalls (cs ++ [c])).tasks,
      (∀ t ∈ (execCalls cs).tasks, t.id ≠ t'.id) → t'.status = .pending) := by
  rw [execCalls_snoc]
  exact ⟨step_applyCall _ c (WF_execCalls cs), fresh_pending _ c⟩

/-- C1 witness: on the trace `create; resolve(approve)`, the surviving
task steps from `pending` to `approved`, an allowed edge. -/
theorem task_status_transitions_monotonic_witness :
    stepOK Status.pending Status.approved := by
  have h := (task_status_transitions_monotonic
    [Call.create ['p'] 0] (Call.resolve 0 Decision.approve ['A'])).1
  exact h ⟨0, .pending, ['p'], 0, none⟩ (by decide)
    ⟨0, .approved, ['p'], 0, some ['A']⟩ (by decide) rfl

/-- C2: `resolveTask` on an existing task that is not `pending` fails
with `AlreadyResolved`, returns the record exactly as it was, and leaves
the store — hence every field of the record — unchanged. -/
theorem resolveTask_already_resolved_no_mutation (st : TaskStore) (id : Nat)
    (d : Decision) (cid : Chars) (t : Task)
    (hfind : st.tasks.find? (fun u => u.id = id) = some t)
    (hst : t.status ≠ .pending) :
    resolveTask st id d cid = (st, .alreadyResolved t) := by
  unfold resolveTask
  rw [hfind]
  simp [hst]

/-- C2 witness: rejecting a task already approved by client A is a no-op
tagged `alreadyResolved` with the unchanged record. -/
theorem resolveTask_already_resolved_no_mutation_witness :
    resolveTask ⟨[⟨0, .approved, ['p'], 0, some ['A']⟩], 1⟩ 0 Decision.reject ['B']
      = (⟨[⟨0, .approved, ['p'], 0, some ['A']⟩], 1⟩,
         .alreadyResolved ⟨0, .approved, ['p'], 0, some ['A']⟩) :=
  resolveTask_already_resolved_no_mutation _ 0 _ _ _ (by decide) (by decide)

/-- C3: the client `task:update` handler is idempotent — applying the
same full-record event twice leaves the cached task list exactly as
applying it once. -/
theorem handleTaskUpdate_idempotent (tasks : List Task) (t : Task) :
    handleTaskUpdate (handleTaskUpdate tasks t) t = handleTaskUpdate tasks t := by
  by_cases h : (tasks.find? (fun u => u.id = t.id)).isSome
  · have hex : ∃ u ∈ tasks, u.id = t.id := by
      rcases Option.isSome_iff_exists.1 h with ⟨u, hu⟩
      exact ⟨u, List.mem_of_find?_eq_some hu, by simpa using List.find?_some hu⟩
    have hinner : handleTaskUpdate tasks t = updateInArray tasks t.id t := by
      unfold handleTaskUpdate
      rw [if_pos h]
    have hmem : t ∈ updateInArray tasks t.id t := by
      rcases hex with ⟨u, hu, hid⟩
      unfold updateInArray
      exact List.mem_map.2 ⟨u, hu, if_pos hid⟩
    have hsome : ((updateInArray tasks t.id t).find? (fun u => u.id = t.id)).isSome := by
      rw [List.find?_isSome]
      exact ⟨t, hmem, by simp⟩
    rw [hinner]
    have houter : handleTaskUpdate (updateInArray tasks t.id t) t
        = updateInArray (updateInArray tasks t.id t) t.id t := by
      unfold handleTaskUpdate
      rw [if_pos hsome]
    rw [houter]
    unfold updateInArray
    rw [List.map_map]
    refine List.map_congr_left fun u _ => ?_
    by_cases hu : u.id = t.id <;> simp [Function.comp, hu]
  · have hnone : tasks.find? (fun u => u.id = t.id) = none :=
      Option.not_isSome_iff_eq_none.1 h
    have hall : ∀ u ∈ tasks, u.id ≠ t.id := by
      intro u hu
      have := List.find?_eq_none.1 hnone u hu
      simpa using this
    have hinner : handleTaskUpdate tasks t = appendState tasks t := by
      unfold handleTaskUpdate
      rw [if_neg h]
    have hsome : ((appendState tasks t).find? (fun u => u.id = t.id)).isSome := by
      rw [List.find?_isSome]
      exact ⟨t, by simp [appendState], by simp⟩
    rw [hinner]
    have houter : handleTaskUpdate (appendState tasks t) t
        = updateInArray (appendState tasks t) t.id t := by
      unfold handleTaskUpdate
      rw [if_pos hsome]
    rw [houter]
    unfold updateInArray appendState
    rw [List.map_append]
    have h1 : tasks.map (fun u => if u.id = t.id then t else u) = tasks.map id :=
      List.map_congr_left fun u hu => by rw [if_neg (hall u hu)]; rfl
    rw [h1, List.map_id]
    simp

/-- C4: on a `task:update` event, the client cache replaces the record
for the event's id wholesale when one is present (all other entries
unchanged, in place) and appends the event's record when absent. -/
theorem handleTaskUpdate_replace_or_insert (tasks : List Task) (t : Task) :
    ((∃ u ∈ tasks, u.id = t.id) →
       handleTaskUpdate tasks t = tasks.map (fun u => if u.id = t.id then t else u)) ∧
    ((∀ u ∈ tasks, u.id ≠ t.id) → handleTaskUpdate tasks t = tasks ++ [t]) := by
  constructor
  · intro hex
    have hsome : (tasks.find? (fun u => u.id = t.id)).isSome := by
      rw [List.find?_isSome]
      rcases hex with ⟨u, hu, hid⟩
      exact ⟨u, hu, by simpa using hid⟩
    rw [handleTaskUpdate, if_pos hsome]
    rfl
  · intro hall
    have hnone : tasks.find? (fun u => u.id = t.id) = none := by
      rw [List.find?_eq_none]
      intro u hu
      simpa using hall u hu
    rw [handleTaskUpdate, hnone]
    simp [appendState]

/-- C4 witness: an update for a cached id replaces that record in place. -/
theorem handleTaskUpdate_replace_or_insert_witness :
    handleTaskUpdate [⟨0, .pending, [], 0, none⟩] ⟨0, .approved, [], 0, some ['A']⟩
      = [⟨0, .approved, [], 0, some ['A']⟩] := by
  have h := (handleTaskUpdate_replace_or_insert [⟨0, .pending, [], 0, none⟩]
    ⟨0, .approved, [], 0, some ['A']⟩).1 ⟨⟨0, .pending, [], 0, none⟩, by decide, rfl⟩
  rw [h]
  decide

/-! ## Room chat relay, `src/client/panels/screen-share.js`

The `RoomEvent.DataReceived` handler parses an inbound data message and,
for `room:chat` messages from a remote participant, routes texts starting
with the reserved `cognate:` marker into the agent chat (marker stripped)
and appends everything else to the room-message log. -/

/-- A parsed `room:chat` data message: `type`, optional `text`, optional
`sender`, timestamp. -/
structure RoomMsg where
  rtype : Chars
  text : Option Chars
  sender : Option Chars
  ts : Nat
deriving DecidableEq, Repr

/-- The reserved agent-chat marker. -/
def cognateMarker : Chars := "cognate:".toList

/-- The `room:chat` part of the `RoomEvent.DataReceived` handler from
`src/client/panels/screen-share.js` (`joinRoom`). The call to
`injectCognateMessage text sender` is represented by returning its
argument pair alongside the new room-message log. -/
def handleRoomChat (roomMessages : List RoomMsg) (msg : RoomMsg)
    (participantIdentity : Option Chars) (localIdentity : Chars) :
    List RoomMsg × Option (Chars × Chars) :=
  if msg.rtype = "room:chat".toList then
    if participantIdentity ≠ some localIdentity then
      match msg.text with
      | some t =>
        if !t.isEmpty && cognateMarker.isPrefixOf t then
          (roomMessages, some (t.drop cognateMarker.length,
            jsOr msg.sender (jsOr participantIdentity "unknown".toList)))
        else
          (roomMessages ++ [msg], none)
      | none => (roomMessages ++ [msg], none)
    else
      (roomMessages, none)
  else
    (roomMessages, none)

lemma isPrefixOf_cognate_ne_nil {t : Chars} (h : cognateMarker.isPrefixOf t = true) :
    t.isEmpty = false := by
  cases t with
  | nil => simp [cognateMarker] at h
  | cons a l => rfl

/-- C8: an inbound `room:chat` message from a remote participant whose
text starts with the reserved `cognate:` marker is routed as relayed
agent-chat content — injected with the marker stripped from the text —
and is not appended to the room-message log; any other text is appended
to the log. The classification depends only on the string prefix. -/
theorem room_chat_prefix_routing (log : List RoomMsg) (msg : RoomMsg)
    (pid : Option Chars) (localId : Chars) (t : Chars)
    (hremote : pid ≠ some localId)
    (htype : msg.rtype = "room:chat".toList)
    (htext : msg.text = some t) :
    (cognateMarker.isPrefixOf t = true →
       handleRoomChat log msg pid localId
         = (log, some (t.drop cognateMarker.length,
             jsOr msg.sender (jsOr pid "unknown".toList)))) ∧
    (cognateMarker.isPrefixOf t = false →
       handleRoomChat log msg pid localId = (log ++ [msg], none)) := by
  constructor
  · intro hpre
    unfold handleRoomChat
    rw [if_pos htype, if_pos hremote, htext]
    simp only [hpre, isPrefixOf_cognate_ne_nil hpre, Bool.not_false, Bool.and_true,
      Bool.and_self, if_pos]
  · intro hpre
    unfold handleRoomChat
    rw [if_pos htype, if_pos hremote, htext]
    simp [hpre]

/-- C8 witness: a remote `room:chat` with text `cognate:hi` is injected
as `hi` from `bob` and the log is untouched. -/
theorem room_chat_prefix_routing_witness :
    handleRoomChat [] ⟨"room:chat".toList, some "cognate:hi".toList, some "bob".toList, 0⟩
      (some "alice".toList) "me".toList
      = ([], some ("hi".toList, "bob".toList)) := by
  have h := (room_chat_prefix_routing []
    ⟨"room:chat".toList, some "cognate:hi".toList, some "bob".toList, 0⟩
    (some "alice".toList) "me".toList "cognate:hi".toList
    (by decide) rfl rfl).1 (by decide)
  rw [h]
  decide

/-! ## The settings router, `src/unnamed/part_000`

An Express router over a `.env` file: a fixed schema of configurable
keys, secret masking for GET, an allow-list filter for POST, and an
order- and comment-preserving `.env` rewriter. -/

/-- Input types of the settings schema: `'secret'`, `'text'`,
`'select'`. -/
inductive FieldType where
  | secret
  | text
  | select
deriving DecidableEq, Repr

/-- One `SETTINGS_SCHEMA` record. The `options` arrays of select fields
are display-only data never consulted by the handlers and are omitted. -/
structure SchemaField where
  key : Chars
  label : Chars
  ftype : FieldType
  restart : Bool
deriving DecidableEq, Repr

/-- `SETTINGS_SCHEMA` — every user-configurable setting. -/
def SETTINGS_SCHEMA : List SchemaField := [
  ⟨"ANTHROPIC_API_KEY".toList, "Anthropic API Key".toList, .secret, false⟩,
  ⟨"CLAUDE_MODEL".toList, "Claude Model".toList, .select, false⟩,
  ⟨"LIVEKIT_API_KEY".toList, "LiveKit API Key".toList, .secret, false⟩,
  ⟨"LIVEKIT_API_SECRET".toList, "LiveKit API Secret".toList, .secret, false⟩,
  ⟨"LIVEKIT_WS_URL".toList, "LiveKit WebSocket URL".toList, .text, false⟩,
  ⟨"PORT".toList, "Server Port".toList, .text, true⟩]

/-- `ALLOWED_KEYS` — the set of permitted setting keys. -/
def ALLOWED_KEYS : List Chars := SETTINGS_SCHEMA.map SchemaField.key

/-- `maskSecret` — mask a secret value, showing only the last 4
characters; empty in, empty out; values shorter than 4 characters mask
to `****` alone. -/
def maskSecret (v : Chars) : Chars :=
  if v.isEmpty then []
  else if v.length < 4 then "****".toList
  else "****".toList ++ v.drop (v.length - 4)

/-- The per-line step of `parseEnvValues`: skip blank and `#` comment
lines and lines without `=`; otherwise split at the first `=` and trim
key and value. -/
def parseLine (line : Chars) : Option (Chars × Chars) :=
  let t := trimChars line
  if t.isEmpty then none
  else if t.head? = some '#' then none
  else if '=' ∈ t then
    some (trimChars (t.takeWhile (fun c => c != '=')),
          trimChars ((t.dropWhile (fun c => c != '=')).drop 1))
  else none

/-- `parseEnvValues` — parse a `.env` file's contents into key–value
entries; as in a JavaScript object, a later line for the same key wins
(see `envLookup`). -/
def parseEnvValues (content : Chars) : List (Chars × Chars) :=
  (content.splitOn '\n').filterMap parseLine

/-- Lookup in the parsed entries with JavaScript object semantics: the
last assignment to a key wins. -/
def envLookup (kvs : List (Chars × Chars)) (k : Chars) : Option Chars :=
  ((kvs.filter (fun p => p.1 = k)).getLast?).map Prod.snd

/-- The replacement line written for an updated key. -/
def mkEnvLine (k v : Chars) : Chars := k ++ '=' :: v

/-- The own property names of `Object.prototype`, paired with the text
that `${updates[key]}` produces for each when the key is inherited
rather than own: `updateEnvFile` tests `key in updates` on a plain
object, and the `in` operator walks the prototype chain, so these names
test true without an own entry. The produced text is that of the
Node.js (V8) runtime the server runs on: the native-function source
text for the eleven function-valued members, and `[object Object]` for
the value of the `__proto__` accessor. -/
def protoEntries : List (Chars × Chars) := [
  ("constructor".toList, "function Object() \x7b [native code] \x7d".toList),
  ("__defineGetter__".toList, "function __defineGetter__() \x7b [native code] \x7d".toList),
  ("__defineSetter__".toList, "function __defineSetter__() \x7b [native code] \x7d".toList),
  ("hasOwnProperty".toList, "function hasOwnProperty() \x7b [native code] \x7d".toList),
  ("__lookupGetter__".toList, "function __lookupGetter__() \x7b [native code] \x7d".toList),
  ("__lookupSetter__".toList, "function __lookupSetter__() \x7b [native code] \x7d".toList),
  ("isPrototypeOf".toList, "function isPrototypeOf() \x7b [native code] \x7d".toList),
  ("propertyIsEnumerable".toList,
    "function propertyIsEnumerable() \x7b [native code] \x7d".toList),
  ("toString".toList, "function toString() \x7b [native code] \x7d".toList),
  ("valueOf".toList, "function valueOf() \x7b [native code] \x7d".toList),
  ("__proto__".toList, "[object Object]".toList),
  ("toLocaleString".toList, "function toLocaleString() \x7b [native code] \x7d".toList)]

/-- The names along the updates object's prototype chain. -/
def protoKeys : List Chars := protoEntries.map Prod.fst

/-- The stringified inherited member for a prototype-chain key. -/
def protoVal (k : Chars) : Chars :=
  ((protoEntries.find? (fun q => q.1 = k)).map Prod.snd).getD []

/-- JavaScript `key in updates` for the plain updates object: an own
entry, or a property inherited from `Object.prototype`. The association
list holds the object's own string-keyed entries (distinct keys, in
insertion order). -/
def jsIn (updates : List (Chars × Chars)) (k : Chars) : Bool :=
  (updates.find? (fun q => q.1 = k)).isSome || protoKeys.contains k

/-- JavaScript `updates[key]` as stringified by the template literal:
the own entry's value when present, the stringified inherited member
otherwise (only reached for prototype-chain keys). -/
def jsGet (updates : List (Chars × Chars)) (k : Chars) : Chars :=
  match updates.find? (fun q => q.1 = k) with
  | some q => q.2
  | none => protoVal k

/-- The line-map step of `updateEnvFile`: a line whose parsed key
passes `key in updates` is replaced in place by
`` `${key}=${updates[key]}` `` — for an own entry that is `key=value`,
and for a key inherited from `Object.prototype` (e.g. `toString`) the
stringified built-in member; blank lines, comments, `=`-free lines and
lines with other keys pass through unchanged. -/
def updateLine (updates : List (Chars × Chars)) (line : Chars) : Chars :=
  match parseLine line with
  | some (k, _) =>
    if jsIn updates k then mkEnvLine k (jsGet updates k) else line
  | none => line

/-- The `written` set accumulated by `updateEnvFile`'s map phase: keys
of existing lines that passed the `key in updates` test and were
rewritten in place. -/
def writtenKeys (updates : List (Chars × Chars)) (lines : List Chars) : List Chars :=
  lines.filterMap (fun line =>
    match parseLine line with
    | some (k, _) => if jsIn updates k then some k else none
    | none => none)

/-- The line list produced by `updateEnvFile` before joining: existing
lines mapped in place, then a `key=value` line appended for each update
whose key was not already present. -/
def updateEnvLines (updates : List (Chars × Chars)) (lines : List Chars) : List Chars :=
  lines.map (updateLine updates) ++
    (updates.filter (fun p => !(writtenKeys updates lines).contains p.1)).map
      (fun p => mkEnvLine p.1 p.2)

/-- The trailing-newline normalization `\n*$` → `\n` of `updateEnvFile`,
first half: drop every trailing newline. -/
def dropTrailingNewlines (s : Chars) : Chars :=
  (s.reverse.dropWhile (fun c => c = '\n')).reverse

/-- `updated.join('\n')`. -/
def joinLines (ls : List Chars) : Chars := List.intercalate ['\n'] ls

/-- `updateEnvFile` — merge `updates` into the `.env` content:
update existing keys in place (preserving ordering and comments), append
new keys at the end, and normalize to exactly one trailing newline. -/
def updateEnvFile (updates : List (Chars × Chars)) (content : Chars) : Chars :=
  dropTrailingNewlines (joinLines (updateEnvLines updates (content.splitOn '\n'))) ++ ['\n']

/-- One settings record in the GET response (the schema field spread
together with its current, possibly masked, value). -/
structure SettingsEntry where
  key : Chars
  label : Chars
  ftype : FieldType
  restart : Bool
  value : Chars
deriving DecidableEq, Repr

/-- The `GET /api/settings` handler: the schema with current values,
secrets masked; `.env` values win over `process.env`, with `||`
semantics for secrets and `??` semantics for the rest. -/
def getSettings (content : Chars) (procEnv : Chars → Option Chars) : List SettingsEntry :=
  SETTINGS_SCHEMA.map (fun f =>
    { key := f.key, label := f.label, ftype := f.ftype, restart := f.restart,
      value :=
        if f.ftype = .secret then
          maskSecret (jsOr (envLookup (parseEnvValues content) f.key)
            (jsOr (procEnv f.key) []))
        else
          jsCoalesce (envLookup (parseEnvValues content) f.key)
            (jsCoalesce (procEnv f.key) []) })

/-- A JSON value in a POST body: a string or anything else (non-strings
are skipped by the handler). -/
inductive JsVal where
  | str (s : Chars)
  | other
deriving DecidableEq, Repr

/-- One step of the filter phase of `POST /api/settings`: an entry is
kept when its key is allow-listed and its value is a string, as the two
`continue` guards of the handler's loop prescribe. -/
def filterEntry (p : Chars × JsVal) : Option (Chars × Chars) :=
  if ALLOWED_KEYS.contains p.1 then
    match p.2 with
    | .str s => some (p.1, s)
    | .other => none
  else none

/-- The filter phase of `POST /api/settings`: keep allow-listed keys
with string values, in body order. Request bodies are JSON objects, so
the handlers are used with lists whose keys are distinct. -/
def filteredUpdates (updates : List (Chars × JsVal)) : List (Chars × Chars) :=
  updates.filterMap filterEntry

/-- `SETTINGS_SCHEMA.find(s => s.key === key)?.restart`, defaulted. -/
def restartFlag (k : Chars) : Bool :=
  ((SETTINGS_SCHEMA.find? (fun s => s.key = k)).map SchemaField.restart).getD false

/-- The observable outcome of `POST /api/settings`: the JSON response
fields and the resulting `process.env` and `.env` contents. -/
structure PostResult where
  ok : Bool
  restartNeeded : Bool
  env : Chars → Option Chars
  file : Chars

/-- `process.env[key] = value`. -/
def setEnv (env : Chars → Option Chars) (k v : Chars) : Chars → Option Chars :=
  fun k' => if k' = k then some v else env k'

/-- The `POST /api/settings` handler on an object body: filter to
allow-listed string values, set each in `process.env`, report
`restartNeeded` when any applied key's schema entry is flagged
`restart`, and rewrite the `.env` file when anything was applied. -/
def postSettings (updates : List (Chars × JsVal)) (env : Chars → Option Chars)
    (content : Chars) : PostResult :=
  let filtered := filteredUpdates updates
  { ok := true
    restartNeeded := filtered.any (fun p => restartFlag p.1)
    env := filtered.foldl (fun e p => setEnv e p.1 p.2) env
    file := if filtered.isEmpty then content else updateEnvFile filtered content }

/-- One form input of the settings modal (`data-key`, `data-type`, the
typed value). -/
structure FormInput where
  key : Chars
  ftype : FieldType
  value : Chars
deriving DecidableEq, Repr

/-- The save handler of `src/client/panels/settings.js`: collect the
updates to send — trim each value, skip secret fields left empty, skip
text/select fields equal to the original fetched value. -/
def collectUpdates (inputs : List FormInput) (settings : List SettingsEntry) :
    List (Chars × Chars) :=
  inputs.filterMap (fun i =>
    let val := trimChars i.value
    if i.ftype = .secret ∧ val.isEmpty then none
    else if (i.ftype = .text ∨ i.ftype = .select) ∧
        val = jsOr ((settings.find? (fun s => s.key = i.key)).map SettingsEntry.value) []
      then none
    else some (i.key, val))

/-! ### Whitespace-trim lemmas -/

/-- A string already trimmed on both ends. -/
def Trimmed (s : Chars) : Prop :=
  s.dropWhile Char.isWhitespace = s ∧ s.reverse.dropWhile Char.isWhitespace = s.reverse

/-- A key that survives a `.env` round trip: trimmed, newline-free,
`=`-free, and not starting a comment. -/
def WfKey (k : Chars) : Prop :=
  Trimmed k ∧ '\n' ∉ k ∧ '=' ∉ k ∧ k.head? ≠ some '#'

/-- A value that survives a `.env` round trip: trimmed and
newline-free. -/
def WfVal (v : Chars) : Prop :=
  Trimmed v ∧ '\n' ∉ v

instance (s : Chars) : Decidable (Trimmed s) := by
  unfold Trimmed; infer_instance

instance (k : Chars) : Decidable (WfKey k) := by
  unfold WfKey; infer_instance

instance (v : Chars) : Decidable (WfVal v) := by
  unfold WfVal; infer_instance

lemma contains_iff_mem {l : List Chars} {a : Chars} : l.contains a = true ↔ a ∈ l := by
  rw [List.contains_iff_exists_mem_beq]
  constructor
  · rintro ⟨b, hb, hab⟩
    rwa [show a = b from by simpa using hab]
  · intro h
    exact ⟨a, h, by simp⟩

lemma dropWhile_cons_self {α : Type} {p : α → Bool} {x : α} {l : List α}
    (h : (x :: l).dropWhile p = x :: l) : p x = false := by
  by_contra hb
  have hx : p x = true := by simpa using hb
  rw [List.dropWhile_cons_of_pos hx] at h
  have hle := (List.dropWhile_suffix (l := l) p).length_le
  rw [h] at hle
  simp at hle

lemma dropWhile_idem {α : Type} (p : α → Bool) (l : List α) :
    (l.dropWhile p).dropWhile p = l.dropWhile p := by
  cases h : l.dropWhile p with
  | nil => rfl
  | cons x xs =>
    have hx : p x = false := by
      have hh := List.head?_dropWhile_not p l
      rw [h] at hh
      simpa using hh
    rw [List.dropWhile_cons_of_neg (by simp [hx])]

lemma dropWhile_append_self {α : Type} {p : α → Bool} {l r : List α}
    (hl : l.dropWhile p = l) (hne : l ≠ []) : (l ++ r).dropWhile p = l ++ r := by
  cases l with
  | nil => exact absurd rfl hne
  | cons x l' =>
    have hx := dropWhile_cons_self hl
    rw [List.cons_append, List.dropWhile_cons_of_neg (by simp [hx])]

lemma trimChars_eq_of_trimmed {s : Chars} (h : Trimmed s) : trimChars s = s := by
  unfold trimChars
  rw [h.1, h.2, List.reverse_reverse]

lemma mem_trimChars {s : Chars} {a : Char} (h : a ∈ trimChars s) : a ∈ s := by
  unfold trimChars at h
  rw [List.mem_reverse] at h
  have h1 := (List.dropWhile_suffix (l := (s.dropWhile Char.isWhitespace).reverse)
    Char.isWhitespace).subset h
  rw [List.mem_reverse] at h1
  exact (List.dropWhile_suffix (l := s) Char.isWhitespace).subset h1

lemma trimmed_trimChars (s : Chars) : Trimmed (trimChars s) := by
  unfold trimChars Trimmed
  constructor
  · cases her : ((s.dropWhile Char.isWhitespace).reverse.dropWhile Char.isWhitespace).reverse with
    | nil => simp
    | cons x xs =>
      have hsuf : (s.dropWhile Char.isWhitespace).reverse.dropWhile Char.isWhitespace
          <:+ (s.dropWhile Char.isWhitespace).reverse :=
        List.dropWhile_suffix _
      obtain ⟨u, hu⟩ := hsuf
      have hd : s.dropWhile Char.isWhitespace =
          ((s.dropWhile Char.isWhitespace).reverse.dropWhile Char.isWhitespace).reverse
            ++ u.reverse := by
        have := congrArg List.reverse hu
        simpa [List.reverse_append] using this.symm
      have hdx : (s.dropWhile Char.isWhitespace).head? = some x := by
        rw [hd, her]
        rfl
      have hwx : Char.isWhitespace x = false := by
        have hh := List.head?_dropWhile_not Char.isWhitespace s
        rw [hdx] at hh
        simpa using hh
      rw [List.dropWhile_cons_of_neg (by simp [hwx])]
  · rw [List.reverse_reverse]
    exact dropWhile_idem _ _

lemma trimChars_idem (s : Chars) : trimChars (trimChars s) = trimChars s :=
  trimChars_eq_of_trimmed (trimmed_trimChars s)

/-! ### Parsing a written `key=value` line -/

lemma dropWhile_append_stop {α : Type} {p : α → Bool} {x : α} (hx : p x = false)
    (a r : List α) : (a ++ x :: r).dropWhile p = a.dropWhile p ++ x :: r := by
  induction a with
  | nil =>
    rw [List.nil_append, List.dropWhile_nil, List.nil_append,
      List.dropWhile_cons_of_neg (by simp [hx])]
  | cons c a' ih =>
    by_cases hc : p c = true
    · rw [List.cons_append, List.dropWhile_cons_of_pos hc,
        List.dropWhile_cons_of_pos hc, ih]
    · rw [List.cons_append, List.dropWhile_cons_of_neg hc,
        List.dropWhile_cons_of_neg hc, List.cons_append]

/-- Trimming a written `key=value` line with a trimmed key keeps the key
and drops only the value's trailing whitespace. -/
lemma trimChars_mkEnvLine' {k : Chars} (hk : Trimmed k) (v : Chars) :
    trimChars (mkEnvLine k v)
      = mkEnvLine k ((v.reverse.dropWhile Char.isWhitespace).reverse) := by
  have heq : Char.isWhitespace '=' = false := by decide
  unfold trimChars mkEnvLine
  have hfront : (k ++ '=' :: v).dropWhile Char.isWhitespace = k ++ '=' :: v := by
    cases k with
    | nil =>
      rw [List.nil_append, List.dropWhile_cons_of_neg (by simp [heq])]
    | cons x l => exact dropWhile_append_self hk.1 (by simp)
  rw [hfront, List.reverse_append, List.reverse_cons, List.append_assoc,
    List.singleton_append, dropWhile_append_stop heq v.reverse k.reverse,
    List.reverse_append, List.reverse_cons, List.reverse_reverse,
    List.append_assoc, List.singleton_append]

/-- Unfolding of `parseLine` without the `let`. -/
lemma parseLine_eq (line : Chars) :
    parseLine line =
      if (trimChars line).isEmpty then none
      else if (trimChars line).head? = some '#' then none
      else if '=' ∈ trimChars line then
        some (trimChars ((trimChars line).takeWhile (fun c => c != '=')),
              trimChars (((trimChars line).dropWhile (fun c => c != '=')).drop 1))
      else none := rfl

lemma parseLine_nil : parseLine [] = none := rfl

/-- Parsing a written `key=value` line with a well-formed key recovers
the key exactly and the value up to trimming — for any value. -/
lemma parseLine_mkEnvLine_general {k : Chars} (hk : WfKey k) (v : Chars) :
    parseLine (mkEnvLine k v)
      = some (k, trimChars ((v.reverse.dropWhile Char.isWhitespace).reverse)) := by
  have htr := trimChars_mkEnvLine' hk.1 v
  have hall : ∀ a ∈ k, (fun c => c != '=') a = true := by
    intro a ha
    simp only [bne_iff_ne, ne_eq]
    intro he
    exact hk.2.2.1 (he ▸ ha)
  rw [parseLine_eq, htr]
  rw [if_neg (by simp [mkEnvLine])]
  rw [if_neg (by
    unfold mkEnvLine
    cases k with
    | nil => simp
    | cons x l =>
      rw [List.cons_append, List.head?_cons]
      intro hc
      exact hk.2.2.2 (by simpa using hc))]
  rw [if_pos (by simp [mkEnvLine])]
  have h4 : (mkEnvLine k ((v.reverse.dropWhile Char.isWhitespace).reverse)).takeWhile
      (fun c => c != '=') = k := by
    unfold mkEnvLine
    rw [List.takeWhile_append_of_pos hall, List.takeWhile_cons]
    simp
  have h5 : (mkEnvLine k ((v.reverse.dropWhile Char.isWhitespace).reverse)).dropWhile
      (fun c => c != '=')
      = '=' :: (v.reverse.dropWhile Char.isWhitespace).reverse := by
    unfold mkEnvLine
    rw [List.dropWhile_append_of_pos hall, List.dropWhile_cons_of_neg (by simp)]
  rw [h4, h5, List.drop_one, List.tail_cons, trimChars_eq_of_trimmed hk.1]

lemma parseLine_mkEnvLine {k v : Chars} (hk : WfKey k) (hv : WfVal v) :
    parseLine (mkEnvLine k v) = some (k, v) := by
  rw [parseLine_mkEnvLine_general hk v]
  have hb : (v.reverse.dropWhile Char.isWhitespace).reverse = v := by
    rw [hv.1.2, List.reverse_reverse]
  rw [hb, trimChars_eq_of_trimmed hv.1]

/-! ### Splitting on newlines -/

lemma modifyHead_append {α : Type} {f : List α → List α} {l r : List (List α)}
    (h : l ≠ []) : (l ++ r).modifyHead f = l.modifyHead f ++ r := by
  cases l with
  | nil => exact absurd rfl h
  | cons x xs => rfl

lemma splitOnP_all_not {α : Type} [DecidableEq α] (p : α → Bool) (s : List α) :
    ∀ l ∈ s.splitOnP p, ∀ a ∈ l, p a = false := by
  induction s with
  | nil =>
    intro l hl a ha
    rw [List.splitOnP_nil, List.mem_singleton] at hl
    rw [hl] at ha
    cases ha
  | cons x s ih =>
    intro l hl a ha
    rw [List.splitOnP_cons] at hl
    by_cases hx : p x
    · rw [if_pos hx] at hl
      rcases List.mem_cons.1 hl with rfl | hl
      · cases ha
      · exact ih l hl a ha
    · rw [if_neg hx] at hl
      cases hsp : s.splitOnP p with
      | nil => exact absurd hsp (List.splitOnP_ne_nil p s)
      | cons h0 t0 =>
        rw [hsp] at hl
        rcases List.mem_cons.1 hl with rfl | hl
        · rcases List.mem_cons.1 ha with rfl | ha
          · simpa using hx
          · exact ih h0 (by rw [hsp]; exact List.mem_cons_self h0 t0) a ha
        · exact ih l (by rw [hsp]; exact List.mem_cons_of_mem h0 hl) a ha

lemma splitOn_nl_not_mem (s : Chars) : ∀ l ∈ s.splitOn '\n', '\n' ∉ l := by
  intro l hl hmem
  have := splitOnP_all_not (fun c => c == '\n') s l hl '\n' hmem
  simp at this

lemma splitOn_nl_append_nl (s : Chars) :
    (s ++ ['\n']).splitOn '\n' = s.splitOn '\n' ++ [[]] := by
  unfold List.splitOn
  induction s with
  | nil => rfl
  | cons a s ih =>
    rw [List.cons_append, List.splitOnP_cons, List.splitOnP_cons]
    by_cases h : a = '\n'
    · rw [if_pos (by simp [h]), if_pos (by simp [h]), ih, List.cons_append]
    · rw [if_neg (by simp [h]), if_neg (by simp [h]), ih,
        modifyHead_append (List.splitOnP_ne_nil _ s)]

lemma splitOn_nl_append_replicate (s : Chars) (m : Nat) :
    (s ++ List.replicate m '\n').splitOn '\n'
      = s.splitOn '\n' ++ List.replicate m [] := by
  induction m with
  | zero => simp
  | succ m ih =>
    rw [List.replicate_succ' m '\n', ← List.append_assoc, splitOn_nl_append_nl, ih,
      List.append_assoc, ← List.replicate_succ']

lemma splitOn_nl_ne_nil (s : Chars) : s.splitOn '\n' ≠ [] := by
  unfold List.splitOn
  exact List.splitOnP_ne_nil _ s

/-! ### Trailing-newline normalization -/

lemma dropTrailingNewlines_spec (s : Chars) :
    ∃ m, s = dropTrailingNewlines s ++ List.replicate m '\n' ∧
      (dropTrailingNewlines s).getLast? ≠ some '\n' := by
  refine ⟨(s.reverse.takeWhile (fun c => c = '\n')).length, ?_, ?_⟩
  · have h1 : (s.reverse.takeWhile (fun c => c = '\n')).reverse
        = List.replicate (s.reverse.takeWhile (fun c => c = '\n')).length '\n' := by
      rw [← List.length_reverse]
      rw [List.eq_replicate_length]
      intro b hb
      rw [List.mem_reverse] at hb
      simpa using List.mem_takeWhile_imp hb
    unfold dropTrailingNewlines
    rw [← h1, ← List.reverse_append, List.takeWhile_append_dropWhile, List.reverse_reverse]
  · unfold dropTrailingNewlines
    rw [List.getLast?_reverse]
    cases hh : (s.reverse.dropWhile (fun c => c = '\n')).head? with
    | none => simp
    | some x =>
      have hx := List.head?_dropWhile_not (fun c => decide (c = '\n')) s.reverse
      rw [hh] at hx
      have hx2 : decide (x = '\n') = false := hx
      intro hc
      rw [Option.some.injEq] at hc
      rw [hc] at hx2
      simp at hx2

lemma filterMap_parseLine_replicate_nil (m : Nat) :
    (List.replicate m ([] : Chars)).filterMap parseLine = [] := by
  induction m with
  | zero => rfl
  | succ m ih => rw [List.replicate_succ, List.filterMap_cons_none parseLine_nil, ih]

lemma parseEnvValues_drop_trailing (s : Chars) :
    parseEnvValues (dropTrailingNewlines s ++ ['\n']) = parseEnvValues s := by
  obtain ⟨m, hs, -⟩ := dropTrailingNewlines_spec s
  unfold parseEnvValues
  conv_rhs => rw [hs]
  rw [splitOn_nl_append_nl, splitOn_nl_append_replicate,
    List.filterMap_append, List.filterMap_append,
    filterMap_parseLine_replicate_nil]
  simp [parseLine_nil]

lemma updateEnvLines_ne_nil (updates : List (Chars × Chars)) (lines : List Chars)
    (h : lines ≠ []) : updateEnvLines updates lines ≠ [] := by
  unfold updateEnvLines
  simp [h]

/-- Re-reading the file written by `updateEnvFile`, when every produced
line is newline-free, recovers exactly the parses of the produced
lines. -/
lemma parseEnvValues_updateEnvFile (updates : List (Chars × Chars)) (content : Chars)
    (h : ∀ l ∈ updateEnvLines updates (content.splitOn '\n'), '\n' ∉ l) :
    parseEnvValues (updateEnvFile updates content)
      = (updateEnvLines updates (content.splitOn '\n')).filterMap parseLine := by
  unfold updateEnvFile
  rw [parseEnvValues_drop_trailing]
  unfold parseEnvValues joinLines
  rw [List.splitOn_intercalate _ '\n' h (updateEnvLines_ne_nil _ _ (splitOn_nl_ne_nil content))]

/-! ### Facts about keys produced by `parseLine` -/

lemma parseLine_some_parts {line k w : Chars} (h : parseLine line = some (k, w)) :
    (trimChars line).isEmpty = false ∧ (trimChars line).head? ≠ some '#' ∧
    '=' ∈ trimChars line ∧
    k = trimChars ((trimChars line).takeWhile (fun c => c != '=')) ∧
    w = trimChars (((trimChars line).dropWhile (fun c => c != '=')).drop 1) := by
  rw [parseLine_eq] at h
  split_ifs at h with h1 h2 h3
  rw [Option.some.injEq, Prod.mk.injEq] at h
  exact ⟨by simpa using h1, h2, h3, h.1.symm, h.2.symm⟩

lemma parseLine_key_subset {line k w : Chars} (h : parseLine line = some (k, w)) :
    ∀ a ∈ k, a ∈ line := by
  intro a ha
  obtain ⟨-, -, -, hk, -⟩ := parseLine_some_parts h
  rw [hk] at ha
  exact mem_trimChars ((List.takeWhile_prefix _).subset (mem_trimChars ha))

lemma suffix_concat_getLast {α : Type} {l m : List α} {x : α}
    (h : l <:+ m ++ [x]) (hne : l ≠ []) : l.getLast? = some x := by
  obtain ⟨u, hu⟩ := h
  have hcat : (m ++ [x]).getLast? = some x := List.getLast?_concat m
  rw [← hu, List.getLast?_append_of_ne_nil u hne] at hcat
  exact hcat

lemma parseLine_key_wf {line k w : Chars} (hnl : '\n' ∉ line)
    (h : parseLine line = some (k, w)) : WfKey k := by
  obtain ⟨hne, hhash, -, hk, -⟩ := parseLine_some_parts h
  refine ⟨?_, ?_, ?_, ?_⟩
  · rw [hk]; exact trimmed_trimChars _
  · intro hmem; exact hnl (parseLine_key_subset h '\n' hmem)
  · intro hmem
    rw [hk] at hmem
    have := List.mem_takeWhile_imp (mem_trimChars hmem)
    simp at this
  · have htr : Trimmed (trimChars line) := trimmed_trimChars line
    cases htt : trimChars line with
    | nil => rw [htt] at hne; simp at hne
    | cons y t' =>
      rw [htt] at hk hhash
      have hy' : y ≠ '#' := by
        intro hc
        exact hhash (by rw [List.head?_cons, hc])
      by_cases hy : y = '='
      case neg =>
        rw [List.takeWhile_cons_of_pos (p := fun c => c != '=') (by simp [hy])] at hk
        have hwsy : Char.isWhitespace y = false := by
          have hfr := htr.1
          rw [htt] at hfr
          exact dropWhile_cons_self hfr
        have hfront : (y :: t'.takeWhile (fun c => c != '=')).dropWhile Char.isWhitespace
            = y :: t'.takeWhile (fun c => c != '=') :=
          List.dropWhile_cons_of_neg (by simp [hwsy])
        rw [hk]
        unfold trimChars
        rw [hfront]
        set e := (y :: t'.takeWhile (fun c => c != '=')).reverse.dropWhile Char.isWhitespace
          with he
        have hene : e ≠ [] := by
          rw [he]
          intro hc
          rw [List.dropWhile_eq_nil_iff] at hc
          have := hc y (by simp)
          rw [hwsy] at this
          cases this
        have hsuf : e <:+ (t'.takeWhile (fun c => c != '=')).reverse ++ [y] := by
          rw [he, List.reverse_cons]
          exact List.dropWhile_suffix _
        have hlast : e.getLast? = some y := suffix_concat_getLast hsuf hene
        rw [List.head?_reverse, hlast]
        intro hc
        exact hy' (by simpa using hc)
      · rw [List.takeWhile_cons_of_neg (p := fun c => c != '=') (by simp [hy])] at hk
        rw [hk]
        simp [trimChars]

/-! ### The rewritten line list -/

lemma protoVal_wfVal (k : Chars) : WfVal (protoVal k) := by
  unfold protoVal
  cases hf : protoEntries.find? (fun q => q.1 = k) with
  | none => exact (by decide : WfVal [])
  | some q =>
    have hq := List.mem_of_find?_eq_some hf
    have hall : ∀ q ∈ protoEntries, WfVal q.2 := by decide
    simpa using hall q hq

lemma protoVal_no_nl (k : Chars) : '\n' ∉ protoVal k :=
  (protoVal_wfVal k).2

lemma updateLine_of_parse_none {updates : List (Chars × Chars)} {line : Chars}
    (h : parseLine line = none) : updateLine updates line = line := by
  unfold updateLine
  rw [h]

lemma updateLine_of_not_in {updates : List (Chars × Chars)} {line k w : Chars}
    (hp : parseLine line = some (k, w))
    (hf : updates.find? (fun q => q.1 = k) = none)
    (hpk : k ∉ protoKeys) :
    updateLine updates line = line := by
  unfold updateLine
  rw [hp]
  show (if jsIn updates k then mkEnvLine k (jsGet updates k) else line) = line
  have hji : jsIn updates k = false := by
    unfold jsIn
    rw [hf]
    simp only [Option.isSome_none, Bool.false_or]
    exact Bool.eq_false_iff.2 (fun hc => hpk (contains_iff_mem.1 hc))
  rw [hji]
  rfl

lemma updateLine_of_proto {updates : List (Chars × Chars)} {line k w : Chars}
    (hp : parseLine line = some (k, w))
    (hf : updates.find? (fun q => q.1 = k) = none)
    (hpk : k ∈ protoKeys) :
    updateLine updates line = mkEnvLine k (protoVal k) := by
  unfold updateLine
  rw [hp]
  show (if jsIn updates k then mkEnvLine k (jsGet updates k) else line)
    = mkEnvLine k (protoVal k)
  have hji : jsIn updates k = true := by
    unfold jsIn
    rw [contains_iff_mem.2 hpk]
    simp
  rw [hji]
  show mkEnvLine k (jsGet updates k) = mkEnvLine k (protoVal k)
  unfold jsGet
  rw [hf]

lemma updateLine_of_find_some {updates : List (Chars × Chars)} {line k w : Chars}
    {q : Chars × Chars} (hp : parseLine line = some (k, w))
    (hf : updates.find? (fun q => q.1 = k) = some q) :
    updateLine updates line = mkEnvLine k q.2 := by
  unfold updateLine
  rw [hp]
  show (if jsIn updates k then mkEnvLine k (jsGet updates k) else line)
    = mkEnvLine k q.2
  have hji : jsIn updates k = true := by
    unfold jsIn
    rw [hf]
    rfl
  rw [hji]
  show mkEnvLine k (jsGet updates k) = mkEnvLine k q.2
  unfold jsGet
  rw [hf]

lemma nodup_fst_inj {l : List (Chars × Chars)} (h : (l.map Prod.fst).Nodup) :
    ∀ p ∈ l, ∀ q ∈ l, p.1 = q.1 → p = q := by
  induction l with
  | nil => intro p hp; cases hp
  | cons x xs ih =>
    simp only [List.map_cons, List.nodup_cons] at h
    intro p hp q hq hfst
    rcases List.mem_cons.1 hp with h1 | h1 <;>
      rcases List.mem_cons.1 hq with h2 | h2
    · rw [h1, h2]
    · exfalso
      apply h.1
      have hx : x.1 = q.1 := by rw [← h1]; exact hfst
      rw [hx]
      exact List.mem_map_of_mem Prod.fst h2
    · exfalso
      apply h.1
      have hx : x.1 = p.1 := by rw [← h2]; exact hfst.symm
      rw [hx]
      exact List.mem_map_of_mem Prod.fst h1
    · exact ih h.2 p h1 q h2 hfst

lemma find?_of_nodup_mem {updates : List (Chars × Chars)} {p : Chars × Chars}
    (hnd : (updates.map Prod.fst).Nodup) (hp : p ∈ updates) :
    updates.find? (fun q => q.1 = p.1) = some p := by
  induction updates with
  | nil => cases hp
  | cons x xs ih =>
    simp only [List.map_cons, List.nodup_cons] at hnd
    rcases List.mem_cons.1 hp with h1 | h1
    · rw [h1, List.find?_cons_of_pos _ (by simp)]
    · have hx : ¬(x.1 = p.1) := by
        intro he
        exact hnd.1 (he ▸ List.mem_map_of_mem Prod.fst h1)
      rw [List.find?_cons_of_neg _ (by simpa using hx)]
      exact ih hnd.2 h1

lemma updateEnvLines_no_nl (updates : List (Chars × Chars)) (content : Chars)
    (hv : ∀ q ∈ updates, '\n' ∉ q.2) (hwfk : ∀ q ∈ updates, '\n' ∉ q.1) :
    ∀ l ∈ updateEnvLines updates (content.splitOn '\n'), '\n' ∉ l := by
  intro l hl
  unfold updateEnvLines at hl
  rcases List.mem_append.1 hl with hl | hl
  · rcases List.mem_map.1 hl with ⟨line, hline, rfl⟩
    have hnl : '\n' ∉ line := splitOn_nl_not_mem content line hline
    cases hp : parseLine line with
    | none => rw [updateLine_of_parse_none hp]; exact hnl
    | some kw =>
      obtain ⟨k, w⟩ := kw
      cases hf : updates.find? (fun q => q.1 = k) with
      | none =>
        by_cases hpk : k ∈ protoKeys
        · rw [updateLine_of_proto hp hf hpk]
          intro hmem
          unfold mkEnvLine at hmem
          rcases List.mem_append.1 hmem with hm | hm
          · exact hnl (parseLine_key_subset hp '\n' hm)
          · rcases List.mem_cons.1 hm with he | hm
            · exact absurd he (by decide)
            · exact protoVal_no_nl k hm
        · rw [updateLine_of_not_in hp hf hpk]; exact hnl
      | some q =>
        rw [updateLine_of_find_some hp hf]
        intro hmem
        unfold mkEnvLine at hmem
        rcases List.mem_append.1 hmem with hm | hm
        · exact hnl (parseLine_key_subset hp '\n' hm)
        · rcases List.mem_cons.1 hm with he | hm
          · exact absurd he (by decide)
          · exact hv q (List.mem_of_find?_eq_some hf) hm
  · rcases List.mem_map.1 hl with ⟨q, hq, rfl⟩
    have hq' : q ∈ updates := (List.mem_filter.1 hq).1
    intro hmem
    unfold mkEnvLine at hmem
    rcases List.mem_append.1 hmem with hm | hm
    · exact hwfk q hq' hm
    · rcases List.mem_cons.1 hm with he | hm
      · exact absurd he (by decide)
      · exact hv q hq' hm

lemma getLast?_all_eq {α : Type} {l : List α} {a : α} (hne : l ≠ [])
    (h : ∀ x ∈ l, x = a) : l.getLast? = some a := by
  rw [List.getLast?_eq_getLast l hne]
  exact congrArg some (h _ (List.getLast_mem hne))

lemma trim_revdrop_of_trimmed {v : Chars} (h : Trimmed v) :
    trimChars ((v.reverse.dropWhile Char.isWhitespace).reverse) = v := by
  rw [h.2, List.reverse_reverse]
  exact trimChars_eq_of_trimmed h

/-- Every parsed entry of the rewritten file whose key belongs to an
update carries that update's value. -/
lemma entries_of_updated_key (updates : List (Chars × Chars)) (content : Chars)
    (hwfk : ∀ q ∈ updates, WfKey q.1)
    (hnd : (updates.map Prod.fst).Nodup) {p : Chars × Chars} (hp : p ∈ updates)
    (htr : Trimmed p.2) :
    ∀ e ∈ (updateEnvLines updates (content.splitOn '\n')).filterMap parseLine,
      e.1 = p.1 → e = (p.1, p.2) := by
  intro e he hekey
  rcases List.mem_filterMap.1 he with ⟨l, hl, hpl⟩
  unfold updateEnvLines at hl
  rcases List.mem_append.1 hl with hl | hl
  · rcases List.mem_map.1 hl with ⟨line, hline, rfl⟩
    have hnl : '\n' ∉ line := splitOn_nl_not_mem content line hline
    cases hp2 : parseLine line with
    | none => rw [updateLine_of_parse_none hp2, hp2] at hpl; cases hpl
    | some kw =>
      obtain ⟨k, w⟩ := kw
      cases hf : updates.find? (fun q => q.1 = k) with
      | none =>
        exfalso
        have hek : e.1 = k := by
          by_cases hpk : k ∈ protoKeys
          · rw [updateLine_of_proto hp2 hf hpk,
              parseLine_mkEnvLine_general (parseLine_key_wf hnl hp2),
              Option.some.injEq] at hpl
            rw [← hpl]
          · rw [updateLine_of_not_in hp2 hf hpk, hp2, Option.some.injEq] at hpl
            rw [← hpl]
        rw [List.find?_eq_none] at hf
        exact hf p hp (by simp [← hekey, hek])
      | some q =>
        have hq := List.mem_of_find?_eq_some hf
        have hqk : q.1 = k := by simpa using List.find?_some hf
        rw [updateLine_of_find_some hp2 hf,
          parseLine_mkEnvLine_general (parseLine_key_wf hnl hp2),
          Option.some.injEq] at hpl
        rw [← hpl] at hekey ⊢
        have hkp : k = p.1 := hekey
        have hqp : q = p := nodup_fst_inj hnd q hq p hp (by rw [hqk, hkp])
        rw [hkp, hqp, trim_revdrop_of_trimmed htr]
  · rcases List.mem_map.1 hl with ⟨q, hq, rfl⟩
    have hq' : q ∈ updates := (List.mem_filter.1 hq).1
    rw [parseLine_mkEnvLine_general (hwfk q hq'), Option.some.injEq] at hpl
    rw [← hpl] at hekey ⊢
    have hqp : q = p := nodup_fst_inj hnd q hq' p hp hekey
    rw [hqp, trim_revdrop_of_trimmed htr]

/-- The rewritten file contains at least one entry for every updated
key. -/
lemma exists_entry_of_updated_key (updates : List (Chars × Chars)) (content : Chars)
    (hwfk : ∀ q ∈ updates, WfKey q.1)
    (_hnd : (updates.map Prod.fst).Nodup) {p : Chars × Chars} (hp : p ∈ updates) :
    ∃ e ∈ (updateEnvLines updates (content.splitOn '\n')).filterMap parseLine,
      e.1 = p.1 := by
  by_cases hw : p.1 ∈ writtenKeys updates (content.splitOn '\n')
  · unfold writtenKeys at hw
    rcases List.mem_filterMap.1 hw with ⟨line, hline, hsome⟩
    have hnl : '\n' ∉ line := splitOn_nl_not_mem content line hline
    cases hp2 : parseLine line with
    | none => rw [hp2] at hsome; cases hsome
    | some kw =>
      obtain ⟨k, w⟩ := kw
      rw [hp2] at hsome
      have hsome2 : (if jsIn updates k then some k else none) = some p.1 := hsome
      by_cases hj : jsIn updates k
      · rw [if_pos hj] at hsome2
        rw [Option.some.injEq] at hsome2
        have hf : (updates.find? (fun q => q.1 = k)).isSome :=
          List.find?_isSome.2 ⟨p, hp, by simp [hsome2]⟩
        obtain ⟨q, hfq⟩ := Option.isSome_iff_exists.1 hf
        refine ⟨(k, trimChars ((q.2.reverse.dropWhile Char.isWhitespace).reverse)),
          ?_, hsome2⟩
        apply List.mem_filterMap.2
        refine ⟨updateLine updates line, ?_, ?_⟩
        · unfold updateEnvLines
          exact List.mem_append_left _ (List.mem_map_of_mem _ hline)
        · rw [updateLine_of_find_some hp2 hfq]
          exact parseLine_mkEnvLine_general (parseLine_key_wf hnl hp2) q.2
      · rw [if_neg hj] at hsome2; cases hsome2
  · refine ⟨(p.1, trimChars ((p.2.reverse.dropWhile Char.isWhitespace).reverse)),
      ?_, rfl⟩
    apply List.mem_filterMap.2
    refine ⟨mkEnvLine p.1 p.2, ?_, parseLine_mkEnvLine_general (hwfk p hp) p.2⟩
    unfold updateEnvLines
    apply List.mem_append_right
    apply List.mem_map_of_mem
    apply List.mem_filter.2
    refine ⟨hp, ?_⟩
    simp only [Bool.not_eq_true']
    rw [← Bool.not_eq_true]
    intro hc
    apply hw
    have := List.contains_iff_exists_mem_beq.1 hc
    rcases this with ⟨a, ha, hab⟩
    rwa [show p.1 = a from by simpa using hab]

/-- Looking up an updated key in the rewritten file yields the new
value. -/
lemma updateEnvFile_lookup_updated (updates : List (Chars × Chars)) (content : Chars)
    (hwfk : ∀ q ∈ updates, WfKey q.1)
    (hv : ∀ q ∈ updates, '\n' ∉ q.2)
    (hnd : (updates.map Prod.fst).Nodup) :
    ∀ p ∈ updates, Trimmed p.2 →
      envLookup (parseEnvValues (updateEnvFile updates content)) p.1 = some p.2 := by
  intro p hp htr
  have hnonl := updateEnvLines_no_nl updates content hv
    (fun q hq => (hwfk q hq).2.1)
  rw [parseEnvValues_updateEnvFile updates content hnonl]
  unfold envLookup
  have hall := entries_of_updated_key updates content hwfk hnd hp htr
  obtain ⟨e0, he0, he0key⟩ := exists_entry_of_updated_key updates content hwfk hnd hp
  have hne : (((updateEnvLines updates (content.splitOn '\n')).filterMap parseLine).filter
      (fun q => q.1 = p.1)) ≠ [] := by
    intro hc
    rw [List.filter_eq_nil_iff] at hc
    exact hc e0 he0 (by simp [he0key])
  have hallf : ∀ e ∈ (((updateEnvLines updates (content.splitOn '\n')).filterMap
      parseLine).filter (fun q => q.1 = p.1)), e = (p.1, p.2) := by
    intro e he
    have hm := List.mem_filter.1 he
    exact hall e hm.1 (by simpa using hm.2)
  rw [getLast?_all_eq hne hallf]
  rfl

/-- The GET response entry found for a schema field. -/
lemma getSettings_find_eq (content : Chars) (procEnv : Chars → Option Chars)
    (f : SchemaField) (hf : f ∈ SETTINGS_SCHEMA) :
    (getSettings content procEnv).find? (fun e => e.key = f.key)
      = some ⟨f.key, f.label, f.ftype, f.restart,
          if f.ftype = .secret then
            maskSecret (jsOr (envLookup (parseEnvValues content) f.key)
              (jsOr (procEnv f.key) []))
          else jsCoalesce (envLookup (parseEnvValues content) f.key)
            (jsCoalesce (procEnv f.key) [])⟩ := by
  fin_cases hf <;> rfl

/-- C5 (amended): for every stored secret value of length at least 4,
GET returns `****` followed by exactly the last 4 characters; a
non-empty stored value shorter than 4 characters is returned as `****`
alone, revealing no character of the secret. -/
theorem getSettings_masks_secret (content : Chars) (procEnv : Chars → Option Chars)
    (f : SchemaField) (hf : f ∈ SETTINGS_SCHEMA) (hsec : f.ftype = .secret)
    (v : Chars) (hv : envLookup (parseEnvValues content) f.key = some v)
    (hne : v.isEmpty = false) :
    ((getSettings content procEnv).find? (fun e => e.key = f.key)).map
        SettingsEntry.value
      = some (if v.length < 4 then "****".toList
              else "****".toList ++ v.drop (v.length - 4)) := by
  rw [getSettings_find_eq content procEnv f hf, Option.map_some']
  show some (if f.ftype = .secret then
      maskSecret (jsOr (envLookup (parseEnvValues content) f.key)
        (jsOr (procEnv f.key) []))
    else jsCoalesce (envLookup (parseEnvValues content) f.key)
      (jsCoalesce (procEnv f.key) [])) = _
  rw [if_pos hsec, hv]
  have hjs : jsOr (some v) (jsOr (procEnv f.key) []) = v := by
    simp [jsOr, hne]
  rw [hjs]
  simp [maskSecret, hne]

/-- C5 counterexample: the claim as stated fails for short secrets — a
stored 3-character secret `abc` is returned as `****`, not as `****`
followed by its last characters. -/
theorem getSettings_short_secret_cex :
    ((getSettings "ANTHROPIC_API_KEY=abc".toList (fun _ => none)).find?
        (fun e => e.key = "ANTHROPIC_API_KEY".toList)).map SettingsEntry.value
      = some "****".toList ∧
    some "****".toList
      ≠ some ("****".toList ++ "abc".toList.drop ("abc".toList.length - 4)) := by
  constructor
  · decide
  · decide

/-- C5 witness: the spec scenario — a stored `sk-test-1234` is returned
masked as `****1234`. -/
theorem getSettings_masks_secret_witness :
    ((getSettings "ANTHROPIC_API_KEY=sk-test-1234".toList (fun _ => none)).find?
        (fun e => e.key = "ANTHROPIC_API_KEY".toList)).map SettingsEntry.value
      = some "****1234".toList := by
  have h := getSettings_masks_secret "ANTHROPIC_API_KEY=sk-test-1234".toList
    (fun _ => none)
    ⟨"ANTHROPIC_API_KEY".toList, "Anthropic API Key".toList, .secret, false⟩
    (by decide) rfl "sk-test-1234".toList (by decide) (by decide)
  rw [h]
  decide

/-! ### POST /api/settings -/

lemma filterEntry_str_allowed {k s : Chars} (hc : ALLOWED_KEYS.contains k = true) :
    filterEntry (k, JsVal.str s) = some (k, s) := by
  unfold filterEntry
  rw [if_pos hc]

lemma filterEntry_other {k : Chars} : filterEntry (k, JsVal.other) = none := by
  unfold filterEntry
  split <;> rfl

lemma filterEntry_not_allowed {q : Chars × JsVal}
    (hc : ¬ALLOWED_KEYS.contains q.1 = true) : filterEntry q = none := by
  unfold filterEntry
  rw [if_neg hc]

lemma mem_filteredUpdates {updates : List (Chars × JsVal)} {p : Chars × Chars} :
    p ∈ filteredUpdates updates ↔
      (p.1, JsVal.str p.2) ∈ updates ∧ p.1 ∈ ALLOWED_KEYS := by
  unfold filteredUpdates
  rw [List.mem_filterMap]
  constructor
  · rintro ⟨q, hq, hsome⟩
    by_cases hc : ALLOWED_KEYS.contains q.1
    · cases hv : q.2 with
      | str s =>
        have hq' : q = (q.1, JsVal.str s) := by rw [← hv]
        rw [hq', filterEntry_str_allowed hc, Option.some.injEq] at hsome
        rw [← hsome]
        exact ⟨hq' ▸ hq, contains_iff_mem.1 hc⟩
      | other =>
        have hq' : q = (q.1, JsVal.other) := by rw [← hv]
        rw [hq', filterEntry_other] at hsome
        cases hsome
    · rw [filterEntry_not_allowed hc] at hsome
      cases hsome
  · rintro ⟨hmem, hall⟩
    exact ⟨(p.1, JsVal.str p.2), hmem,
      by rw [filterEntry_str_allowed (contains_iff_mem.2 hall)]⟩

/-- C7: the POST response reports `restartNeeded: true` exactly when
some applied update — an allow-listed key carrying a string value —
targets a key whose schema entry is flagged `restart`. The handler only
reports the flag; it performs no restart. -/
theorem postSettings_restart_flag (updates : List (Chars × JsVal))
    (env : Chars → Option Chars) (content : Chars) :
    (postSettings updates env content).restartNeeded = true ↔
      ∃ q ∈ updates, (∃ s, q.2 = JsVal.str s) ∧ q.1 ∈ ALLOWED_KEYS ∧
        restartFlag q.1 = true := by
  show (filteredUpdates updates).any (fun p => restartFlag p.1) = true ↔ _
  rw [List.any_eq_true]
  constructor
  · rintro ⟨p, hp, hflag⟩
    obtain ⟨hmem, hall⟩ := mem_filteredUpdates.1 hp
    exact ⟨(p.1, JsVal.str p.2), hmem, ⟨p.2, rfl⟩, hall, hflag⟩
  · rintro ⟨q, hq, ⟨s, hs⟩, hall, hflag⟩
    refine ⟨(q.1, s), mem_filteredUpdates.2 ⟨?_, hall⟩, hflag⟩
    show (q.1, JsVal.str s) ∈ updates
    rw [← hs]
    exact hq

/-- C7 witness: updating `PORT` (flagged `restart: true`) reports
`restartNeeded`. -/
theorem postSettings_restart_flag_witness :
    (postSettings [("PORT".toList, JsVal.str "4000".toList)] (fun _ => none)
        []).restartNeeded = true := by
  rw [postSettings_restart_flag]
  exact ⟨("PORT".toList, JsVal.str "4000".toList), by decide,
    ⟨"4000".toList, rfl⟩, by decide, by decide⟩

lemma foldl_setEnv_of_not_key (l : List (Chars × Chars)) (env : Chars → Option Chars)
    (k : Chars) (h : ∀ q ∈ l, q.1 ≠ k) :
    (l.foldl (fun e p => setEnv e p.1 p.2) env) k = env k := by
  induction l generalizing env with
  | nil => rfl
  | cons x xs ih =>
    rw [List.foldl_cons, ih _ (fun q hq => h q (List.mem_cons_of_mem _ hq))]
    unfold setEnv
    rw [if_neg (fun he => h x (List.mem_cons_self _ _) he.symm)]

lemma filteredUpdates_nil_of_unknown {updates : List (Chars × JsVal)}
    (h : ∀ q ∈ updates, q.1 ∉ ALLOWED_KEYS) : filteredUpdates updates = [] := by
  unfold filteredUpdates
  rw [List.filterMap_eq_nil_iff]
  intro q hq
  exact filterEntry_not_allowed (fun hc => h q hq (contains_iff_mem.1 hc))

/-- C6: keys outside the allow-list are silently dropped by POST — they
never change `process.env`; a body of only unknown keys leaves the
`.env` file and `process.env` entirely unchanged, with a normal
`ok: true`, `restartNeeded: false` response; and GET only ever returns
allow-listed fields. -/
theorem postSettings_unknown_keys_dropped (updates : List (Chars × JsVal))
    (env : Chars → Option Chars) (content : Chars) :
    (∀ k, k ∉ ALLOWED_KEYS → (postSettings updates env content).env k = env k) ∧
    ((∀ q ∈ updates, q.1 ∉ ALLOWED_KEYS) →
      (postSettings updates env content).file = content ∧
      (∀ k, (postSettings updates env content).env k = env k) ∧
      (postSettings updates env content).restartNeeded = false ∧
      (postSettings updates env content).ok = true) ∧
    (∀ content' procEnv', ∀ e ∈ getSettings content' procEnv', e.key ∈ ALLOWED_KEYS) := by
  refine ⟨?_, ?_, ?_⟩
  · intro k hk
    show ((filteredUpdates updates).foldl (fun e p => setEnv e p.1 p.2) env) k = env k
    apply foldl_setEnv_of_not_key
    intro q hq he
    exact hk (he ▸ (mem_filteredUpdates.1 hq).2)
  · intro hall
    have hnil : filteredUpdates updates = [] := filteredUpdates_nil_of_unknown hall
    refine ⟨?_, ?_, ?_, rfl⟩
    · show (if (filteredUpdates updates).isEmpty then content
        else updateEnvFile (filteredUpdates updates) content) = content
      rw [hnil]
      rfl
    · intro k
      show ((filteredUpdates updates).foldl (fun e p => setEnv e p.1 p.2) env) k = env k
      rw [hnil]
      rfl
    · show (filteredUpdates updates).any (fun p => restartFlag p.1) = false
      rw [hnil]
      rfl
  · intro content' procEnv' e he
    unfold getSettings at he
    rcases List.mem_map.1 he with ⟨f, hf, rfl⟩
    exact List.mem_map_of_mem SchemaField.key hf

/-- C6 witness: posting only `UNKNOWN_KEY` leaves the stored file
unchanged. -/
theorem postSettings_unknown_keys_dropped_witness :
    (postSettings [("UNKNOWN_KEY".toList, JsVal.str "x".toList)] (fun _ => none)
        "PORT=3000\n".toList).file = "PORT=3000\n".toList :=
  ((postSettings_unknown_keys_dropped [("UNKNOWN_KEY".toList, JsVal.str "x".toList)]
    (fun _ => none) "PORT=3000\n".toList).2.1 (by decide)).1

/-! ### Applying an empty-string update (C9) -/

lemma foldl_setEnv_mem (l : List (Chars × Chars)) :
    ∀ env : Chars → Option Chars, ∀ {k v : Chars},
      (l.map Prod.fst).Nodup → (k, v) ∈ l →
      (l.foldl (fun e p => setEnv e p.1 p.2) env) k = some v := by
  induction l with
  | nil => intro env k v _ hm; cases hm
  | cons x xs ih =>
    intro env k v hnd hm
    simp only [List.map_cons, List.nodup_cons] at hnd
    rw [List.foldl_cons]
    rcases List.mem_cons.1 hm with h1 | h1
    · rw [foldl_setEnv_of_not_key xs _ k ?_]
      · rw [← h1]
        simp [setEnv]
      · intro q hq he
        apply hnd.1
        have hx1 : x.1 = k := by rw [← h1]
        rw [hx1, ← he]
        exact List.mem_map_of_mem Prod.fst hq
    · exact ih _ hnd.2 h1

lemma filteredUpdates_fst_sublist (updates : List (Chars × JsVal)) :
    List.Sublist ((filteredUpdates updates).map Prod.fst) (updates.map Prod.fst) := by
  induction updates with
  | nil => simp [filteredUpdates]
  | cons x xs ih =>
    unfold filteredUpdates at ih ⊢
    cases hfx : filterEntry x with
    | none =>
      rw [List.filterMap_cons_none hfx, List.map_cons]
      exact ih.cons x.1
    | some p =>
      have hp1 : p.1 = x.1 := by
        unfold filterEntry at hfx
        by_cases hc : ALLOWED_KEYS.contains x.1
        · rw [if_pos hc] at hfx
          cases hv : x.2 with
          | str s =>
            rw [hv] at hfx
            have h2 : some (x.1, s) = some p := hfx
            rw [Option.some.injEq] at h2
            rw [← h2]
          | other =>
            rw [hv] at hfx
            have h0 : (none : Option (Chars × Chars)) = some p := hfx
            cases h0
        · rw [if_neg hc] at hfx
          cases hfx
      rw [List.filterMap_cons_some hfx, List.map_cons, List.map_cons, hp1]
      exact ih.cons₂ x.1

/-- An update's `key=value` line is among the rewritten lines: replaced
in place when the key already occurs, appended otherwise. -/
lemma mkEnvLine_mem_updateEnvLines (updates : List (Chars × Chars))
    (lines : List Chars) (hnd : (updates.map Prod.fst).Nodup)
    (p : Chars × Chars) (hp : p ∈ updates) :
    mkEnvLine p.1 p.2 ∈ updateEnvLines updates lines := by
  by_cases hw : p.1 ∈ writtenKeys updates lines
  · unfold writtenKeys at hw
    rcases List.mem_filterMap.1 hw with ⟨line, hline, hsome⟩
    cases hp2 : parseLine line with
    | none => rw [hp2] at hsome; cases hsome
    | some kw =>
      obtain ⟨k, w⟩ := kw
      rw [hp2] at hsome
      have hsome2 : (if jsIn updates k then some k else none) = some p.1 := hsome
      by_cases hj : jsIn updates k
      · rw [if_pos hj, Option.some.injEq] at hsome2
        have hfind : updates.find? (fun q => q.1 = k) = some p := by
          rw [hsome2]
          exact find?_of_nodup_mem hnd hp
        unfold updateEnvLines
        apply List.mem_append_left
        have heq := updateLine_of_find_some hp2 hfind
        rw [← hsome2, ← heq]
        exact List.mem_map_of_mem _ hline
      · rw [if_neg hj] at hsome2
        cases hsome2
  · unfold updateEnvLines
    apply List.mem_append_right
    apply List.mem_map_of_mem
    apply List.mem_filter.2
    refine ⟨hp, ?_⟩
    simp only [Bool.not_eq_true']
    rw [← Bool.not_eq_true]
    intro hc
    apply hw
    rcases List.contains_iff_exists_mem_beq.1 hc with ⟨a, ha, hab⟩
    rwa [show p.1 = a from by simpa using hab]

/-- Every nonempty rewritten line survives the trailing-newline
normalization and appears in the written file. -/
lemma nonempty_line_mem_updateEnvFile (updates : List (Chars × Chars)) (content : Chars)
    (hnonl : ∀ l ∈ updateEnvLines updates (content.splitOn '\n'), '\n' ∉ l) :
    ∀ l ∈ updateEnvLines updates (content.splitOn '\n'), l ≠ [] →
      l ∈ (updateEnvFile updates content).splitOn '\n' := by
  intro l hl hlne
  obtain ⟨m, hJ, -⟩ := dropTrailingNewlines_spec
    (joinLines (updateEnvLines updates (content.splitOn '\n')))
  have hsplitJ : (joinLines (updateEnvLines updates (content.splitOn '\n'))).splitOn '\n'
      = updateEnvLines updates (content.splitOn '\n') := by
    unfold joinLines
    exact List.splitOn_intercalate _ '\n' hnonl
      (updateEnvLines_ne_nil _ _ (splitOn_nl_ne_nil content))
  have h2 : (dropTrailingNewlines
      (joinLines (updateEnvLines updates (content.splitOn '\n')))).splitOn '\n'
      ++ List.replicate m []
      = updateEnvLines updates (content.splitOn '\n') := by
    rw [← splitOn_nl_append_replicate, ← hJ, hsplitJ]
  unfold updateEnvFile
  rw [splitOn_nl_append_nl]
  apply List.mem_append_left
  rw [← h2] at hl
  rcases List.mem_append.1 hl with h | h
  · exact h
  · exact absurd (List.eq_of_mem_replicate h) hlne

/-- C9 (amended): an allow-listed key mapped to the empty string is
applied by the POST handler, not skipped: the entry survives the filter,
`process.env` for that key is set to the empty string, and the line
`KEY=` is written to the `.env` file; provided no applied string value
in the body contains a newline, re-parsing the file also yields the
empty string for that key — so an empty-string value clears the stored
secret server-side. Only the client-side form skips empty secret
inputs, which the last conjunct states for the save handler's
collector. -/
theorem postSettings_applies_empty_string (updates : List (Chars × JsVal))
    (env : Chars → Option Chars) (content : Chars) (k : Chars)
    (hmem : (k, JsVal.str []) ∈ updates)
    (hallow : k ∈ ALLOWED_KEYS)
    (hnd : (updates.map Prod.fst).Nodup)
    (hvals : ∀ q ∈ updates, ∀ s, q.2 = JsVal.str s → '\n' ∉ s) :
    (k, ([] : Chars)) ∈ filteredUpdates updates ∧
    (postSettings updates env content).env k = some [] ∧
    envLookup (parseEnvValues ((postSettings updates env content).file)) k = some [] ∧
    mkEnvLine k [] ∈ ((postSettings updates env content).file).splitOn '\n' ∧
    (∀ (i : FormInput) (rest : List FormInput) (settings : List SettingsEntry),
      i.ftype = .secret → trimChars i.value = [] →
      collectUpdates (i :: rest) settings = collectUpdates rest settings) := by
  have hmemf : (k, ([] : Chars)) ∈ filteredUpdates updates :=
    mem_filteredUpdates.2 ⟨hmem, hallow⟩
  have hndf : ((filteredUpdates updates).map Prod.fst).Nodup :=
    hnd.sublist (filteredUpdates_fst_sublist updates)
  have hwffk : ∀ q ∈ filteredUpdates updates, WfKey q.1 := by
    intro q hq
    obtain ⟨hqm, hqa⟩ := mem_filteredUpdates.1 hq
    have hwfall : ∀ a ∈ ALLOWED_KEYS, WfKey a := by decide
    exact hwfall q.1 hqa
  have hvf : ∀ q ∈ filteredUpdates updates, '\n' ∉ q.2 := by
    intro q hq
    obtain ⟨hqm, hqa⟩ := mem_filteredUpdates.1 hq
    exact hvals _ hqm q.2 rfl
  have hne : (filteredUpdates updates).isEmpty = false := by
    cases hfe : filteredUpdates updates with
    | nil => rw [hfe] at hmemf; cases hmemf
    | cons a l => rfl
  have hfile : (postSettings updates env content).file
      = updateEnvFile (filteredUpdates updates) content := by
    show (if (filteredUpdates updates).isEmpty then content
      else updateEnvFile (filteredUpdates updates) content) = _
    rw [hne]
    rfl
  refine ⟨hmemf, ?_, ?_, ?_, ?_⟩
  · show ((filteredUpdates updates).foldl (fun e p => setEnv e p.1 p.2) env) k = some []
    exact foldl_setEnv_mem _ env hndf hmemf
  · rw [hfile]
    exact updateEnvFile_lookup_updated (filteredUpdates updates) content hwffk hvf
      hndf (k, []) hmemf (show Trimmed ([] : Chars) from by decide)
  · rw [hfile]
    have hnonl := updateEnvLines_no_nl (filteredUpdates updates) content hvf
      (fun q hq => (hwffk q hq).2.1)
    apply nonempty_line_mem_updateEnvFile _ _ hnonl
    · exact mkEnvLine_mem_updateEnvLines (filteredUpdates updates) _ hndf _ hmemf
    · simp [mkEnvLine]
  · intro i rest settings hsec htrim
    unfold collectUpdates
    refine List.filterMap_cons_none ?_
    have hcond : i.ftype = .secret ∧ (trimChars i.value).isEmpty = true :=
      ⟨hsec, by rw [htrim]; rfl⟩
    exact if_pos hcond

/-- C9 counterexample: over every POST body the claim's parse-back
conjunct fails — a body mapping `ANTHROPIC_API_KEY` to the empty string
and `LIVEKIT_WS_URL` to a value holding an embedded newline followed by
`ANTHROPIC_API_KEY=evil` writes that newline verbatim into the file, so
re-parsing yields `evil` for `ANTHROPIC_API_KEY`, not the empty
string. -/
theorem postSettings_empty_string_cex :
    envLookup (parseEnvValues ((postSettings
        [("ANTHROPIC_API_KEY".toList, JsVal.str []),
         ("LIVEKIT_WS_URL".toList, JsVal.str "x\nANTHROPIC_API_KEY=evil".toList)]
        (fun _ => none) []).file)) "ANTHROPIC_API_KEY".toList
      = some "evil".toList ∧
    some "evil".toList ≠ some ([] : Chars) := by
  constructor
  · decide
  · decide

/-- C9 witness: posting the empty string for `ANTHROPIC_API_KEY` clears
it — `process.env` holds the empty string. -/
theorem postSettings_applies_empty_string_witness :
    (postSettings [("ANTHROPIC_API_KEY".toList, JsVal.str [])] (fun _ => none)
        "ANTHROPIC_API_KEY=old\n".toList).env "ANTHROPIC_API_KEY".toList
      = some [] :=
  (postSettings_applies_empty_string [("ANTHROPIC_API_KEY".toList, JsVal.str [])]
    (fun _ => none) "ANTHROPIC_API_KEY=old\n".toList "ANTHROPIC_API_KEY".toList
    (by decide) (by decide) (by decide)
    (by
      intro q hq s hs
      rcases List.mem_singleton.1 hq with rfl
      have hs' : JsVal.str [] = JsVal.str s := hs
      injection hs' with h
      rw [← h]
      decide)).2.1

end Anthropair
